import Mathlib

/-!
Verification of the pyjls (jetperch/jls) wrapper layer and of the storage
engine it binds.

The Python sources under `pyjls/` (time64.py, structs.py, entry_points/)
are embedded directly.  Python floats are modelled by exact rationals,
Python `int()` truncation by `pyTrunc`, and a raised exception by
`Except.error`.  The storage engine itself (Writer/Reader, the C core)
ships as a compiled extension; where a claim is about the engine, the
relevant operations are modelled from the specification, and each such
definition carries a doc comment saying so.
-/

/-- A Python exception kind, as visible through the wrapper API. -/
inductive PyError where
  | valueError
  deriving DecidableEq, Repr

/-- Error taxonomy of the storage engine (spec section 7). -/
inductive JlsError where
  | definitionError
  | outOfOrderWrite
  | outOfRange
  deriving DecidableEq, Repr

/-! ## time64.py -/

/-- time64.py: `EPOCH = datetime.datetime(2018, 1, 1, tzinfo=utc).timestamp()`,
which is 1514764800.0 POSIX seconds. -/
def EPOCH : ℚ := 1514764800

/-- time64.py: `SCALE = (1 << 30)`. -/
def SCALE : ℚ := 2 ^ 30

/-- Python `int(x)` on a float: truncation toward zero. -/
def pyTrunc (q : ℚ) : ℤ := if 0 ≤ q then ⌊q⌋ else ⌈q⌉

/-- Value of a digit character. -/
def digitVal (c : Char) : ℕ := c.toNat - 48

/-- Numeric value of a digit string (most significant first). -/
def digitsToNat (ds : List Char) : ℕ := ds.foldl (fun a c => 10 * a + digitVal c) 0

/-- Optional leading sign of a Python float literal: the sign factor and
the remaining characters. -/
def parseSign : List Char → ℚ × List Char
  | [] => (1, [])
  | c :: r => if c = '-' then (-1, r) else if c = '+' then (1, r) else (1, c :: r)

/-- Model of Python `float(s)` on a decimal literal: optional sign, then
digits with at most one decimal point and at least one digit overall
(Python also accepts exponents and special values, which no claim needs).
Returns `none` where `float(s)` raises `ValueError`. -/
def parseFloat (s : List Char) : Option ℚ :=
  let sp := parseSign s
  let ip := sp.2.takeWhile Char.isDigit
  let rest := sp.2.dropWhile Char.isDigit
  match rest with
  | [] => if ip = [] then Option.none else some (sp.1 * (digitsToNat ip : ℚ))
  | d :: fp =>
    if d = '.' ∧ fp.all Char.isDigit = true ∧ (ip ≠ [] ∨ fp ≠ []) then
      some (sp.1 * ((digitsToNat ip : ℚ) + (digitsToNat fp : ℚ) / ((10 ^ fp.length : ℕ) : ℚ)))
    else Option.none

/-- Python `float(s)` as used by time64.py, raising `ValueError` on failure. -/
def pyFloat (s : List Char) : Except PyError ℚ :=
  match parseFloat s with
  | some q => .ok q
  | Option.none => .error .valueError

/-- Argument to `as_time64`: a Python `int` (or `np.int64`), a
`datetime.datetime` (carrying its POSIX `timestamp()` seconds), a float
of POSIX seconds, or a string. -/
inductive TimeInput where
  | int (t : ℤ)
  | dt (seconds : ℚ)
  | float (t : ℚ)
  | str (s : List Char)

/-- time64.py `as_time64(t)`: integers pass through; datetimes are first
converted by `.timestamp()`; everything else goes through `float(t)`;
then `int((t - EPOCH) * SCALE)`. -/
def as_time64 : TimeInput → Except PyError ℤ
  | .int t => .ok t
  | .dt seconds => .ok (pyTrunc ((seconds - EPOCH) * SCALE))
  | .float t => .ok (pyTrunc ((t - EPOCH) * SCALE))
  | .str s => do
    let t ← pyFloat s
    .ok (pyTrunc ((t - EPOCH) * SCALE))

/-- time64.py `as_timestamp(t)`: `as_time64(t) / SCALE + EPOCH`. -/
def as_timestamp (t : TimeInput) : Except PyError ℚ := do
  let t64 ← as_time64 t
  .ok ((t64 : ℚ) / SCALE + EPOCH)

/-- Argument to `duration_to_seconds`: `None`, a Python number, or a string. -/
inductive DurationInput where
  | pynone
  | num (q : ℚ)
  | str (s : List Char)

/-- time64.py `duration_to_seconds(d)`: `None` and the empty string raise
`ValueError`; a string ending in `s`/`m`/`h`/`d` is `float` of the rest
scaled by 1/60/3600/86400; any other string is `float(d)`; a number is
`float(d)`. -/
def duration_to_seconds : DurationInput → Except PyError ℚ
  | .pynone => .error .valueError
  | .num q => .ok q
  | .str s =>
    match s.getLast? with
    | Option.none => .error .valueError
    | some c =>
      if c = 's' then pyFloat s.dropLast
      else if c = 'm' then (pyFloat s.dropLast).map (fun f => 60 * f)
      else if c = 'h' then (pyFloat s.dropLast).map (fun f => 60 * 60 * f)
      else if c = 'd' then (pyFloat s.dropLast).map (fun f => 60 * 60 * 24 * f)
      else pyFloat s

/-! ## structs.py -/

/-- structs.py `SignalDef`: a signal definition with the caller-side
defaults (samples_per_data 100000, sample_decimate_factor 1000,
entries_per_summary 20000, summary_decimate_factor 100,
annotation / UTC decimate factors 100). -/
structure SignalDef where
  signal_id : ℕ
  source_id : ℕ
  signal_type : ℕ := 0
  data_type : ℕ := 0
  sample_rate : ℕ := 0
  samples_per_data : ℕ := 100000
  sample_decimate_factor : ℕ := 1000
  entries_per_summary : ℕ := 20000
  summary_decimate_factor : ℕ := 100
  annotation_decimate_factor : ℕ := 100
  utc_decimate_factor : ℕ := 100
  sample_id_offset : ℕ := 0
  name : Option (List Char) := Option.none
  units : Option (List Char) := Option.none
  length : ℕ := 0
  deriving DecidableEq, Repr

/-! ## Storage engine model

The Writer/Reader engine is a compiled C extension; the definitions below
are modelled from the specification (sections 3, 4.3, 4.4, 4.6, 4.7). -/

/-- One annotation entry (spec section 3): sample id, optional y value,
annotation kind, group id, and an opaque payload. -/
structure AnnEntry where
  sample_id : ℕ
  y : Option ℚ
  kind : ℕ
  group_id : ℕ
  payload : List ℕ
  deriving DecidableEq, Repr

/-- One UTC track entry (spec section 3): sample id and time64 timestamp. -/
structure UtcEntry where
  sample_id : ℕ
  timestamp : ℤ
  deriving DecidableEq, Repr

/-- Look up the value stored under key `k` in an association list. -/
def alist_get {β : Type} (l : List (ℕ × β)) (k : ℕ) : Option β :=
  (l.find? (fun p => p.1 = k)).map Prod.snd

/-- Replace the value stored under key `k` in an association list. -/
def alist_set {β : Type} (l : List (ℕ × β)) (k : ℕ) (v : β) : List (ℕ × β) :=
  l.map (fun p => if p.1 = k then (k, v) else p)

/-- Modelled from the spec: the state of an open Writer (the C engine's
in-memory track registry, spec sections 3 and 4): the defined source ids,
the defined signals, and per-signal raw-data, annotation and UTC tracks. -/
structure WriterState where
  sources : List ℕ
  signals : List SignalDef
  fsr_data : List (ℕ × List ℚ)
  ann_tracks : List (ℕ × List AnnEntry)
  utc_tracks : List (ℕ × List UtcEntry)
  deriving DecidableEq, Repr

/-- Modelled from the spec: a fresh file has the built-in global source 0
and no user-defined signals. -/
def WriterState.init : WriterState :=
  { sources := [0], signals := [], fsr_data := [], ann_tracks := [], utc_tracks := [] }

/-- Modelled from the spec (section 3): `source_def` creates a source
exactly once; a duplicate id is a `DefinitionError`. -/
def source_def (st : WriterState) (source_id : ℕ) : Except JlsError WriterState :=
  if source_id ∈ st.sources then .error .definitionError
  else .ok { st with sources := st.sources ++ [source_id] }

/-- Modelled from the spec (sections 3, 7): `signal_def` requires
`source_id` to reference an already-defined source and the signal id to be
fresh (`DefinitionError` otherwise), and creates the signal's empty
raw-data, annotation and UTC tracks. -/
def signal_def (st : WriterState) (sd : SignalDef) : Except JlsError WriterState :=
  if sd.source_id ∉ st.sources then .error .definitionError
  else if st.signals.any (fun s => s.signal_id = sd.signal_id) then .error .definitionError
  else .ok { st with
    signals := st.signals ++ [sd],
    fsr_data := st.fsr_data ++ [(sd.signal_id, [])],
    ann_tracks := st.ann_tracks ++ [(sd.signal_id, [])],
    utc_tracks := st.utc_tracks ++ [(sd.signal_id, [])] }

/-- Modelled from the spec (section 4.3): the next expected sample id of a
signal's FSR track is `sample_id_offset` plus the number of samples
already appended. -/
def fsr_next_sample_id (st : WriterState) (signal_id : ℕ) : Option ℕ :=
  match st.signals.find? (fun s => s.signal_id = signal_id),
        alist_get st.fsr_data signal_id with
  | some sd, some data => some (sd.sample_id_offset + data.length)
  | _, _ => Option.none

/-- Modelled from the spec (section 4.3): `Writer.fsr` appends samples;
`sample_id` must equal the next expected id (no gaps, no rewinding),
otherwise the call fails with `OutOfOrderWrite`. -/
def fsr_append (st : WriterState) (signal_id sample_id : ℕ) (values : List ℚ) :
    Except JlsError WriterState :=
  match st.signals.find? (fun s => s.signal_id = signal_id),
        alist_get st.fsr_data signal_id with
  | some sd, some data =>
    if sample_id = sd.sample_id_offset + data.length then
      .ok { st with fsr_data := alist_set st.fsr_data signal_id (data ++ values) }
    else .error .outOfOrderWrite
  | _, _ => .error .definitionError

/-- Modelled from the spec (section 4.4): `Writer.annotation` accepts
entries in non-decreasing sample-id order; a sample id below the previous
entry's fails with `OutOfOrderWrite`. -/
def annotation_append (st : WriterState) (signal_id : ℕ) (e : AnnEntry) :
    Except JlsError WriterState :=
  match alist_get st.ann_tracks signal_id with
  | some es =>
    match es.getLast? with
    | some prev =>
      if e.sample_id < prev.sample_id then .error .outOfOrderWrite
      else .ok { st with ann_tracks := alist_set st.ann_tracks signal_id (es ++ [e]) }
    | Option.none => .ok { st with ann_tracks := alist_set st.ann_tracks signal_id (es ++ [e]) }
  | Option.none => .error .definitionError

/-- Modelled from the spec (section 4.4): `Writer.utc` accepts entries in
non-decreasing sample-id order; a sample id below the previous entry's
fails with `OutOfOrderWrite`. -/
def utc_append (st : WriterState) (signal_id : ℕ) (e : UtcEntry) :
    Except JlsError WriterState :=
  match alist_get st.utc_tracks signal_id with
  | some es =>
    match es.getLast? with
    | some prev =>
      if e.sample_id < prev.sample_id then .error .outOfOrderWrite
      else .ok { st with utc_tracks := alist_set st.utc_tracks signal_id (es ++ [e]) }
    | Option.none => .ok { st with utc_tracks := alist_set st.utc_tracks signal_id (es ++ [e]) }
  | Option.none => .error .definitionError

/-- A single append command on one of a signal's tracks (spec section 4.5:
commands are applied in enqueue order). -/
inductive WriteOp where
  | fsr (signal_id sample_id : ℕ) (values : List ℚ)
  | ann (signal_id : ℕ) (e : AnnEntry)
  | utc (signal_id : ℕ) (e : UtcEntry)

/-- The sample id carried by an append command. -/
def WriteOp.sample_of : WriteOp → ℕ
  | .fsr _ sample_id _ => sample_id
  | .ann _ e => e.sample_id
  | .utc _ e => e.sample_id

/-- Modelled from the spec: the lowest sample id the addressed track still
accepts — the next expected id for FSR, the previous entry's sample id
(or 0) for the annotation and UTC tracks. -/
def next_expected (st : WriterState) : WriteOp → Option ℕ
  | .fsr signal_id _ _ => fsr_next_sample_id st signal_id
  | .ann signal_id _ =>
    (alist_get st.ann_tracks signal_id).map (fun es =>
      match es.getLast? with
      | some prev => prev.sample_id
      | Option.none => 0)
  | .utc signal_id _ =>
    (alist_get st.utc_tracks signal_id).map (fun es =>
      match es.getLast? with
      | some prev => prev.sample_id
      | Option.none => 0)

/-- Dispatch one append command to the writer. -/
def writer_step (st : WriterState) : WriteOp → Except JlsError WriterState
  | .fsr signal_id sample_id values => fsr_append st signal_id sample_id values
  | .ann signal_id e => annotation_append st signal_id e
  | .utc signal_id e => utc_append st signal_id e

/-- Fuel-indexed splitting of a sample stream into chunks of `n` samples
(the fuel is the list length, so the definition is structural). -/
def chunk_go {α : Type} (n : ℕ) : ℕ → List α → List (List α)
  | _, [] => []
  | 0, xs => [xs]
  | fuel + 1, x :: xs => ((x :: xs).take n) :: chunk_go n fuel ((x :: xs).drop n)

/-- Modelled from the spec (section 4.3): on close, a signal's appended
samples are flushed as data chunks of `samples_per_data` samples, the
final chunk possibly undersized. -/
def to_chunks {α : Type} (n : ℕ) (xs : List α) : List (List α) :=
  chunk_go n xs.length xs

/-- Modelled from the spec (section 4.6): resolve `[start, start+count)`
against a chunk directory, skipping chunks wholly before `start` and
decoding only the covering chunks. -/
def read_chunks {α : Type} : List (List α) → ℕ → ℕ → List α
  | [], _, _ => []
  | c :: cs, start, count =>
    if c.length ≤ start then read_chunks cs (start - c.length) count
    else ((c.drop start).take count) ++ read_chunks cs 0 (count - (c.length - start))

/-- Modelled from the spec (section 4.6): `Reader.fsr(signal_id, start,
count)` reads raw samples from the signal's data chunks; a range outside
`[sample_id_offset, sample_id_offset + length)` fails with `OutOfRange`. -/
def reader_fsr (st : WriterState) (signal_id start count : ℕ) :
    Except JlsError (List ℚ) :=
  match st.signals.find? (fun s => s.signal_id = signal_id),
        alist_get st.fsr_data signal_id with
  | some sd, some data =>
    if sd.sample_id_offset ≤ start ∧
        start + count ≤ sd.sample_id_offset + data.length then
      .ok (read_chunks (to_chunks sd.samples_per_data data)
        (start - sd.sample_id_offset) count)
    else .error .outOfRange
  | _, _ => .error .definitionError

/-- Run a sequence of `Writer.fsr` append calls, the caller passing as
each call's `sample_id` the running total of samples written so far. -/
def append_run (signal_id : ℕ) : List (List ℚ) → ℕ → WriterState →
    Except JlsError WriterState
  | [], _, st => .ok st
  | b :: bs, sample_id, st =>
    match fsr_append st signal_id sample_id b with
    | .ok st' => append_run signal_id bs (sample_id + b.length) st'
    | .error e => .error e

/-- The full write/read scenario of the round-trip property: define the
signal's source and the signal on a fresh file, append `batches` starting
at sample id `sample_id_offset`, close, and read back the whole range. -/
def fsr_write_read (sd : SignalDef) (batches : List (List ℚ)) :
    Except JlsError (List ℚ) := do
  let st1 ← source_def WriterState.init sd.source_id
  let st2 ← signal_def st1 sd
  let st3 ← append_run sd.signal_id batches sd.sample_id_offset st2
  reader_fsr st3 sd.signal_id sd.sample_id_offset batches.flatten.length

/-! ## Statistics engine model (spec section 4.2) -/

/-- Minimum of a sample list (0 on the empty list, which no track uses). -/
def listMin : List ℚ → ℚ
  | [] => 0
  | x :: xs => xs.foldl min x

/-- Maximum of a sample list (0 on the empty list, which no track uses). -/
def listMax : List ℚ → ℚ
  | [] => 0
  | x :: xs => xs.foldl max x

/-- Arithmetic mean of a sample list. -/
def listMean (xs : List ℚ) : ℚ := xs.sum / (xs.length : ℚ)

/-- Sum of squared deviations of `xs` about `c`. -/
def m2 (xs : List ℚ) (c : ℚ) : ℚ := (xs.map (fun x => (x - c) ^ 2)).sum

/-- One summary row {mean, min, max, std} of spec section 3, together with
the window's sample count.  The standard deviation is kept as its square
`var` so the model stays in exact rationals (`std = sqrt var`, and
`std = 0 ↔ var = 0`). -/
structure SummaryEntry where
  count : ℕ
  mean : ℚ
  min : ℚ
  max : ℚ
  var : ℚ
  deriving DecidableEq, Repr

/-- Modelled from the spec (section 4.2): `compute(buffer, count)` over
one decimation window — mean, min, max, and the sample (N-1) variance for
N>1, zero (not NaN) for N=1. -/
def compute : List ℚ → SummaryEntry
  | [] => ⟨0, 0, 0, 0, 0⟩
  | x :: xs =>
    { count := (x :: xs).length,
      mean := listMean (x :: xs),
      min := listMin (x :: xs),
      max := listMax (x :: xs),
      var := if (x :: xs).length = 1 then 0
        else m2 (x :: xs) (listMean (x :: xs)) / (((x :: xs).length : ℚ) - 1) }

/-- Modelled from the spec (section 4.2): `reduce(child_entries)` combines
child summaries without re-reading raw samples — count-weighted mean and
the parallel variance merge. -/
def reduce (es : List SummaryEntry) : SummaryEntry :=
  let N : ℕ := (es.map (fun e => e.count)).sum
  let mu : ℚ := (es.map (fun e => (e.count : ℚ) * e.mean)).sum / (N : ℚ)
  { count := N,
    mean := mu,
    min := listMin (es.map (fun e => e.min)),
    max := listMax (es.map (fun e => e.max)),
    var := if N ≤ 1 then 0
      else (es.map (fun e =>
        ((e.count : ℚ) - 1) * e.var + (e.count : ℚ) * (e.mean - mu) ^ 2)).sum
        / ((N : ℚ) - 1) }

/-! ## Annotation/UTC seek (spec section 4.4) -/

/-- Modelled from the spec (section 4.4): reading with `seek_sample_id`
returns the entries from the seek point to the end of the track — the
entries before the first one whose sample id reaches `s` are skipped. -/
def seek_entries {β : Type} (f : β → ℕ) (entries : List β) (s : ℕ) : List β :=
  entries.dropWhile (fun e => f e < s)

/-- Modelled from the spec (section 4.6): `Reader.annotations(signal_id,
seek_sample_id)` streams the signal's annotation entries from the seek
point onward. -/
def annotations_read (st : WriterState) (signal_id s : ℕ) :
    Except JlsError (List AnnEntry) :=
  match alist_get st.ann_tracks signal_id with
  | some es => .ok (seek_entries (fun e => e.sample_id) es s)
  | Option.none => .error .definitionError

/-- Modelled from the spec (section 4.6): `Reader.utc(signal_id,
seek_sample_id)` streams the signal's UTC entries from the seek point
onward. -/
def utc_read (st : WriterState) (signal_id s : ℕ) :
    Except JlsError (List UtcEntry) :=
  match alist_get st.utc_tracks signal_id with
  | some es => .ok (seek_entries (fun e => e.sample_id) es s)
  | Option.none => .error .definitionError

/-! ## Copy/recovery model (spec section 4.7) -/

/-- A chunk of the source file as the copy path sees it: whether its
checksum validates, and its payload. -/
structure RawChunk where
  valid : Bool
  payload : List ℕ
  deriving DecidableEq, Repr

/-- Modelled from the spec (section 4.7): `copy` replays the source's
chunks in order, skipping invalid ones, and invokes `on_progress` with an
increasing fraction per chunk, reaching exactly 1.0 at completion.
Returns the replayed payloads and the sequence of progress fractions. -/
def copy_model (src : List RawChunk) : List (List ℕ) × List ℚ :=
  ((src.filter (fun c => c.valid)).map (fun c => c.payload),
   (List.range src.length).map (fun i : ℕ => ((i : ℚ) + 1) / (src.length : ℚ)) ++ [1])

/-! ## Recorded chunking behavior (test_binding.py, test_fsr_f32) -/

/-- The chunking parameters of a signal as the Reader reports them. -/
structure ChunkParams where
  samples_per_data : ℕ
  sample_decimate_factor : ℕ
  entries_per_summary : ℕ
  summary_decimate_factor : ℕ
  annotation_decimate_factor : ℕ
  utc_decimate_factor : ℕ
  deriving DecidableEq, Repr

/-- test_binding.py `test_fsr_f32`: the `signal_def` call
`w.signal_def(3, source_id=1, sample_rate=1000000, name='current',
units='A')` — every chunking parameter left at its default. -/
def test_fsr_f32_signal : SignalDef :=
  { signal_id := 3, source_id := 1, sample_rate := 1000000,
    name := some ("current".toList), units := some ("A".toList) }

/-- The chunking parameters a `SignalDef` carries. -/
def SignalDef.chunk_params (sd : SignalDef) : ChunkParams :=
  ⟨sd.samples_per_data, sd.sample_decimate_factor, sd.entries_per_summary,
   sd.summary_decimate_factor, sd.annotation_decimate_factor, sd.utc_decimate_factor⟩

/-- test_binding.py `test_fsr_f32` lines 93-98: the chunking parameters
the Reader reports for that signal (the engine's adjusted values). -/
def test_fsr_f32_reported : ChunkParams :=
  ⟨8192, 128, 640, 20, 100, 100⟩

/-! ## entry_points/export.py -/

/-- The `SignalType.FSR` constant (value 0, per structs.py `signal_type`
and test_binding.py `assertEqual(0, s.signal_type)`). -/
def SignalTypeFSR : ℕ := 0

/-- The arguments of the `export` CLI command that decide `on_cmd`'s
return value: the output filename and the optional `--start`/`--length`. -/
structure ExportArgs where
  outfile : List Char
  start : Option ℤ
  length : Option ℤ

/-- The fields of the looked-up signal that `export.on_cmd` consults. -/
structure SignalView where
  signal_type : ℕ
  length : ℤ
  sample_rate : ℕ

/-- entry_points/export.py `on_cmd`: returns 1 when the output extension
is neither `.csv` nor `.bin`, when the signal is not FSR, or when `start`
is at or past the signal length; otherwise it runs the export loop (which
contains no return statement) and falls off the end, returning `None`. -/
def export_on_cmd (args : ExportArgs) (signal : SignalView) : Option ℤ :=
  if ¬((".csv".toList).isSuffixOf args.outfile ∨ (".bin".toList).isSuffixOf args.outfile) then
    some 1
  else if signal.signal_type ≠ SignalTypeFSR then some 1
  else
    let start : ℤ := match args.start with
      | Option.none => 0
      | some s => s
    if signal.length ≤ start then some 1
    else
      Option.none

/-! ## Concrete instances used by witnesses -/

/-- A concrete signal, as in `test_fsr_f32` (defaults everywhere else). -/
def sd3 : SignalDef := { signal_id := 3, source_id := 1 }

/-- A concrete writer state: source 1 and signal 3 defined, two raw
samples, one annotation entry and one UTC entry already appended. -/
def sample_writer_state : WriterState :=
  { sources := [0, 1],
    signals := [sd3],
    fsr_data := [(3, [1, 2])],
    ann_tracks := [(3, [⟨5, Option.none, 0, 0, []⟩])],
    utc_tracks := [(3, [⟨5, 7⟩])] }

/-- A successful `export` invocation: `.bin` output, no `--start`. -/
def export_args_success : ExportArgs := ⟨"out.bin".toList, Option.none, Option.none⟩

/-- The signal seen by that invocation: FSR, 110000 samples at 1 MHz. -/
def signal_view_fsr : SignalView := ⟨0, 110000, 1000000⟩

/-! # Theorems -/

/-- C7: the time64 helpers realize the 64-bit fixed-point encoding with
zero at 2018-01-01T00:00:00Z (POSIX seconds `EPOCH`) and one second equal
to `2^30` units: `as_time64` of a float or datetime `t` is
`int((t - EPOCH) * 2^30)`, `as_timestamp` of an integer timestamp `k` is
`k / 2^30 + EPOCH`, `as_time64` of the epoch itself is 0, and the epoch
plus one second maps to `2^30`. -/
theorem time64_conversion_spec :
    (∀ q : ℚ, as_time64 (.float q) = .ok (pyTrunc ((q - EPOCH) * 2 ^ 30))) ∧
    (∀ q : ℚ, as_time64 (.dt q) = .ok (pyTrunc ((q - EPOCH) * 2 ^ 30))) ∧
    (∀ k : ℤ, as_timestamp (.int k) = .ok ((k : ℚ) / 2 ^ 30 + EPOCH)) ∧
    as_time64 (.float EPOCH) = .ok 0 ∧
    as_time64 (.float (EPOCH + 1)) = .ok (2 ^ 30) ∧
    SCALE = 2 ^ 30 := by
  refine ⟨fun q => rfl, fun q => rfl, fun k => rfl, ?_, ?_, rfl⟩
  · show Except.ok (pyTrunc ((EPOCH - EPOCH) * SCALE)) = Except.ok 0
    norm_num [pyTrunc]
  · show Except.ok (pyTrunc ((EPOCH + 1 - EPOCH) * SCALE)) = Except.ok (2 ^ 30)
    norm_num [pyTrunc, SCALE]

/-- C7 witness: the conversions evaluated at concrete inputs. -/
theorem time64_conversion_spec_witness :
    as_time64 (.float (EPOCH + 1)) = .ok (2 ^ 30) ∧
    as_timestamp (.int (2 ^ 30)) = .ok (1 + EPOCH) := by
  refine ⟨time64_conversion_spec.2.2.2.2.1, ?_⟩
  have h := time64_conversion_spec.2.2.1 (2 ^ 30)
  rw [h]
  norm_num

/-- C10: `as_time64` applied to a string that is not parseable as a float
(such as an ISO 8601 datetime string) raises `ValueError` instead of
returning a timestamp. -/
theorem as_time64_str_value_error (s : List Char) (h : parseFloat s = Option.none) :
    as_time64 (.str s) = .error .valueError := by
  simp [as_time64, pyFloat, h, Bind.bind, Except.bind]

/-- C10 witness: the ISO string used by `test_iso_str` and passed along by
`timestamp_patch.on_cmd` is rejected. -/
theorem as_time64_str_value_error_witness :
    parseFloat ("2018-01-01T00:00:00.000000Z".toList) = Option.none ∧
    as_time64 (.str ("2018-01-01T00:00:00.000000Z".toList)) = .error .valueError :=
  ⟨by decide, as_time64_str_value_error _ (by decide)⟩

/-- C4 counterexample: in `test_fsr_f32` the signal is defined with the
caller defaults (samples_per_data 100000, sample_decimate_factor 1000,
entries_per_summary 20000, summary_decimate_factor 100), yet the Reader
reports 8192/128/640/20 — the reported chunking parameters are not the
caller-provided values. -/
theorem chunking_reported_ne_caller :
    test_fsr_f32_reported ≠ test_fsr_f32_signal.chunk_params := by
  decide

/-- C4 (amended): the Reader reports the engine's adjusted chunking
parameters, which may differ from the caller-provided values; in the
recorded test a signal defined with the defaults at 1 MHz is reported
with samples_per_data 8192, sample_decimate_factor 128,
entries_per_summary 640, summary_decimate_factor 20, while the annotation
and UTC decimate factors (100) do match the caller, and the reported
values keep the divisibility structure of the pyramid. -/
theorem chunking_reported_values :
    test_fsr_f32_signal.chunk_params = ⟨100000, 1000, 20000, 100, 100, 100⟩ ∧
    test_fsr_f32_reported = ⟨8192, 128, 640, 20, 100, 100⟩ ∧
    test_fsr_f32_reported.annotation_decimate_factor =
      test_fsr_f32_signal.annotation_decimate_factor ∧
    test_fsr_f32_reported.utc_decimate_factor =
      test_fsr_f32_signal.utc_decimate_factor ∧
    test_fsr_f32_reported.sample_decimate_factor ∣
      test_fsr_f32_reported.samples_per_data ∧
    test_fsr_f32_reported.summary_decimate_factor ∣
      test_fsr_f32_reported.entries_per_summary :=
  ⟨rfl, rfl, rfl, rfl, ⟨64, rfl⟩, ⟨32, rfl⟩⟩




/-- C6: the sequence of fractions `copy` passes to `on_progress` is
monotonically increasing, every value lies in [0, 1], and the final value
is exactly 1 at completion. -/
theorem copy_progress_spec (src : List RawChunk) :
    List.Pairwise (· ≤ ·) (copy_model src).2 ∧
    (∀ x ∈ (copy_model src).2, 0 ≤ x ∧ x ≤ 1) ∧
    ((copy_model src).2).getLast? = some 1 := by
  set n : ℕ := src.length with hn
  have hub : ∀ x ∈ (List.range n).map (fun i : ℕ => ((i : ℚ) + 1) / (n : ℚ)), 0 ≤ x ∧ x ≤ 1 := by
    intro x hx
    rw [List.mem_map] at hx
    obtain ⟨i, hi, rfl⟩ := hx
    rw [List.mem_range] at hi
    have hn0 : 0 < (n : ℚ) := by
      have : 0 < n := Nat.lt_of_le_of_lt (Nat.zero_le i) hi
      exact_mod_cast this
    refine ⟨by positivity, ?_⟩
    rw [div_le_one hn0]
    exact_mod_cast Nat.succ_le_of_lt hi
  refine ⟨?_, ?_, ?_⟩
  · show List.Pairwise (· ≤ ·)
      ((List.range n).map (fun i : ℕ => ((i : ℚ) + 1) / (n : ℚ)) ++ [1])
    rw [List.pairwise_append]
    refine ⟨?_, List.pairwise_singleton _ _, ?_⟩
    · rw [List.pairwise_map]
      refine (List.pairwise_lt_range n).imp ?_
      intro a b hab
      by_cases h0 : (n : ℚ) = 0
      · simp [h0]
      · have hpos : 0 < (n : ℚ) := lt_of_le_of_ne (Nat.cast_nonneg n) (Ne.symm h0)
        rw [div_le_div_iff_of_pos_right hpos]
        have : (a : ℚ) ≤ (b : ℚ) := by exact_mod_cast Nat.le_of_lt hab
        linarith
    · intro a ha b hb
      rw [List.mem_singleton] at hb
      subst hb
      exact (hub a ha).2
  · intro x hx
    rcases List.mem_append.mp hx with h | h
    · exact hub x h
    · rw [List.mem_singleton] at h
      subst h
      exact ⟨zero_le_one, le_refl 1⟩
  · exact List.getLast?_concat _

/-- C9 counterexample: a successful `export` invocation (`.bin` output,
no `--start`, an FSR signal with samples) makes `on_cmd` fall off the end
and return `None`, not 0 — the claim that `on_cmd` returns 0 on success
fails. -/
theorem export_on_cmd_success_not_zero :
    export_on_cmd export_args_success signal_view_fsr = Option.none ∧
    export_on_cmd export_args_success signal_view_fsr ≠ some 0 := by
  constructor <;> decide

/-- C9 (amended): `export.on_cmd` returns 1 for user-input errors — an
output filename ending in neither `.csv` nor `.bin`, a signal that is
not FSR, or a start sample index at or past the signal length — and on
success returns `None` (there is no return statement on the success
path; the CLI surface treats `None` as exit code 0). -/
theorem export_on_cmd_codes (args : ExportArgs) (signal : SignalView) :
    (¬((".csv".toList).isSuffixOf args.outfile ∨ (".bin".toList).isSuffixOf args.outfile) →
      export_on_cmd args signal = some 1) ∧
    (((".csv".toList).isSuffixOf args.outfile ∨ (".bin".toList).isSuffixOf args.outfile) →
      signal.signal_type ≠ SignalTypeFSR →
      export_on_cmd args signal = some 1) ∧
    (((".csv".toList).isSuffixOf args.outfile ∨ (".bin".toList).isSuffixOf args.outfile) →
      signal.signal_type = SignalTypeFSR →
      signal.length ≤ args.start.getD 0 →
      export_on_cmd args signal = some 1) ∧
    (((".csv".toList).isSuffixOf args.outfile ∨ (".bin".toList).isSuffixOf args.outfile) →
      signal.signal_type = SignalTypeFSR →
      args.start.getD 0 < signal.length →
      export_on_cmd args signal = Option.none) := by
  refine ⟨?_, ?_, ?_, ?_⟩
  · intro h
    simp only [export_on_cmd, if_pos h]
  · intro hext htype
    rw [export_on_cmd, if_neg (not_not_intro hext), if_pos htype]
  · intro hext htype hlen
    rw [export_on_cmd, if_neg (not_not_intro hext), if_neg (by simp [htype])]
    cases hstart : args.start with
    | none =>
      simp only [hstart, Option.getD_none] at hlen
      simp [hlen]
    | some s =>
      simp only [hstart, Option.getD_some] at hlen
      simp [hlen]
  · intro hext htype hlt
    rw [export_on_cmd, if_neg (not_not_intro hext), if_neg (by simp [htype])]
    cases hstart : args.start with
    | none =>
      simp only [hstart, Option.getD_none] at hlt
      simp [not_le.mpr hlt]
    | some s =>
      simp only [hstart, Option.getD_some] at hlt
      simp [not_le.mpr hlt]

/-- C9 witness: the error paths (bad extension, non-FSR signal) and the
success path evaluated on concrete invocations. -/
theorem export_on_cmd_codes_witness :
    export_on_cmd ⟨"out.txt".toList, Option.none, Option.none⟩ signal_view_fsr = some 1 ∧
    export_on_cmd export_args_success ⟨1, 110000, 1000000⟩ = some 1 ∧
    export_on_cmd export_args_success ⟨0, 110000, 1000000⟩ = Option.none :=
  ⟨(export_on_cmd_codes ⟨"out.txt".toList, Option.none, Option.none⟩ signal_view_fsr).1
      (by decide),
   (export_on_cmd_codes export_args_success ⟨1, 110000, 1000000⟩).2.1
      (by decide) (by decide),
   (export_on_cmd_codes export_args_success ⟨0, 110000, 1000000⟩).2.2.2
      (by decide) (by decide) (by decide)⟩

/-- C3: appending to any track (FSR data, annotation, UTC) with a sample
id lower than the track's next expected id fails with `OutOfOrderWrite`,
and defining a signal whose `source_id` does not reference an
already-defined source fails with `DefinitionError`; both errors are
returned directly to the caller. -/
theorem writer_out_of_order_and_unknown_source
    (st : WriterState) (op : WriteOp) (e : ℕ) (sd : SignalDef) :
    (next_expected st op = some e → op.sample_of < e →
      writer_step st op = .error .outOfOrderWrite) ∧
    (sd.source_id ∉ st.sources → signal_def st sd = .error .definitionError) := by
  constructor
  · intro hexp hlt
    cases op with
    | fsr signal_id sample_id values =>
      cases h1 : st.signals.find? (fun s => s.signal_id = signal_id) with
      | none => simp [next_expected, fsr_next_sample_id, h1] at hexp
      | some sd' =>
        cases h2 : alist_get st.fsr_data signal_id with
        | none => simp [next_expected, fsr_next_sample_id, h1, h2] at hexp
        | some data =>
          simp only [next_expected, fsr_next_sample_id, h1, h2,
            Option.some.injEq] at hexp
          simp only [WriteOp.sample_of] at hlt
          simp only [writer_step, fsr_append, h1, h2]
          rw [if_neg (by omega)]
    | ann signal_id a =>
      cases h1 : alist_get st.ann_tracks signal_id with
      | none => simp [next_expected, h1] at hexp
      | some es =>
        simp only [WriteOp.sample_of] at hlt
        cases h2 : es.getLast? with
        | none =>
          simp only [next_expected, h1, h2, Option.map_some',
            Option.some.injEq] at hexp
          omega
        | some prev =>
          simp only [next_expected, h1, h2, Option.map_some',
            Option.some.injEq] at hexp
          simp only [writer_step, annotation_append, h1, h2]
          rw [if_pos (by omega)]
    | utc signal_id u =>
      cases h1 : alist_get st.utc_tracks signal_id with
      | none => simp [next_expected, h1] at hexp
      | some es =>
        simp only [WriteOp.sample_of] at hlt
        cases h2 : es.getLast? with
        | none =>
          simp only [next_expected, h1, h2, Option.map_some',
            Option.some.injEq] at hexp
          omega
        | some prev =>
          simp only [next_expected, h1, h2, Option.map_some',
            Option.some.injEq] at hexp
          simp only [writer_step, utc_append, h1, h2]
          rw [if_pos (by omega)]
  · intro h
    simp only [signal_def, if_pos h]

/-- C3 witness: on the concrete writer state, rewinding the FSR track and
referencing the undefined source 9 are rejected. -/
theorem writer_out_of_order_and_unknown_source_witness :
    writer_step sample_writer_state (.fsr 3 1 [9]) = .error .outOfOrderWrite ∧
    signal_def sample_writer_state { signal_id := 4, source_id := 9 } =
      .error .definitionError :=
  ⟨(writer_out_of_order_and_unknown_source sample_writer_state (.fsr 3 1 [9]) 2
      { signal_id := 4, source_id := 9 }).1 (by decide) (by decide),
   (writer_out_of_order_and_unknown_source sample_writer_state (.fsr 3 1 [9]) 2
      { signal_id := 4, source_id := 9 }).2 (by decide)⟩

/-- In a list sorted by `f`, every element's key is at most the last
element's key. -/
theorem pairwise_le_getLast {β : Type} (f : β → ℕ) :
    ∀ (l : List β), List.Pairwise (fun a b => f a ≤ f b) l →
      ∀ b, l.getLast? = some b → ∀ x ∈ l, f x ≤ f b := by
  intro l
  induction l with
  | nil => intro _ b hb; cases hb
  | cons a t ih =>
    intro hp b hb x hx
    rw [List.pairwise_cons] at hp
    cases t with
    | nil =>
      simp only [List.getLast?_singleton, Option.some.injEq] at hb
      rw [List.mem_singleton] at hx
      subst hb; subst hx
      exact le_refl _
    | cons c u =>
      have hb' : (c :: u).getLast? = some b := by
        rwa [List.getLast?_cons_cons] at hb
      rcases List.mem_cons.mp hx with rfl | hx'
      · exact hp.1 b (List.mem_of_getLast?_eq_some hb')
      · exact ih hp.2 b hb' x hx'

/-- Seeking at the key of an existing entry returns, as the head of the
result, an entry with exactly that key. -/
theorem seek_entries_head {β : Type} (f : β → ℕ) (l : List β) (s : ℕ)
    (hs : List.Pairwise (fun a b => f a ≤ f b) l)
    (e₀ : β) (h₀ : e₀ ∈ l) (hf : f e₀ = s) :
    ∃ e rest, seek_entries f l s = e :: rest ∧ f e = s ∧ e ∈ l := by
  induction l with
  | nil => cases h₀
  | cons a t ih =>
    rw [List.pairwise_cons] at hs
    by_cases ha : f a < s
    · have hne : e₀ ≠ a := by
        intro h; subst h; omega
      have h₀' : e₀ ∈ t := by
        rcases List.mem_cons.mp h₀ with h | h
        · exact absurd h hne
        · exact h
      obtain ⟨e, rest, hseek, hfe, hmem⟩ := ih hs.2 h₀'
      refine ⟨e, rest, ?_, hfe, List.mem_cons_of_mem _ hmem⟩
      rw [seek_entries, List.dropWhile_cons, if_pos (by simpa using ha)]
      exact hseek
    · refine ⟨a, t, ?_, ?_, List.mem_cons_self a t⟩
      · rw [seek_entries, List.dropWhile_cons, if_neg (by simpa using ha)]
      · have hle : f a ≤ s := by
          rcases List.mem_cons.mp h₀ with h | h
          · subst h; omega
          · have := hs.1 e₀ h
            omega
        omega

/-- Seeking strictly past the last entry's key returns the empty list. -/
theorem seek_entries_past {β : Type} (f : β → ℕ) (l : List β) (s : ℕ)
    (hs : List.Pairwise (fun a b => f a ≤ f b) l)
    (elast : β) (hl : l.getLast? = some elast) (hlt : f elast < s) :
    seek_entries f l s = [] := by
  rw [seek_entries, List.dropWhile_eq_nil_iff]
  intro x hx
  have := pairwise_le_getLast f l hs elast hl x hx
  simpa using Nat.lt_of_le_of_lt this hlt

/-- C5: for the annotation and UTC tracks, reading with a seek sample id
equal to an existing entry's sample id yields an entry with that sample
id as the first result, and reading with a seek sample id strictly
greater than the last entry's sample id yields the empty sequence. -/
theorem reader_seek_spec (st : WriterState) (signal_id s : ℕ)
    (es : List AnnEntry) (us : List UtcEntry)
    (hes : alist_get st.ann_tracks signal_id = some es)
    (hus : alist_get st.utc_tracks signal_id = some us)
    (hsa : List.Pairwise (fun a b => a.sample_id ≤ b.sample_id) es)
    (hsu : List.Pairwise (fun a b => a.sample_id ≤ b.sample_id) us) :
    ((∃ e ∈ es, e.sample_id = s) →
      ∃ e rest, annotations_read st signal_id s = .ok (e :: rest) ∧
        e.sample_id = s ∧ e ∈ es) ∧
    (∀ elast, es.getLast? = some elast → elast.sample_id < s →
      annotations_read st signal_id s = .ok []) ∧
    ((∃ u ∈ us, u.sample_id = s) →
      ∃ u rest, utc_read st signal_id s = .ok (u :: rest) ∧
        u.sample_id = s ∧ u ∈ us) ∧
    (∀ ulast, us.getLast? = some ulast → ulast.sample_id < s →
      utc_read st signal_id s = .ok []) := by
  have hann : annotations_read st signal_id s =
      .ok (seek_entries (fun e => e.sample_id) es s) := by
    simp only [annotations_read, hes]
  have hutc : utc_read st signal_id s =
      .ok (seek_entries (fun e => e.sample_id) us s) := by
    simp only [utc_read, hus]
  refine ⟨?_, ?_, ?_, ?_⟩
  · rintro ⟨e₀, h₀, hf⟩
    obtain ⟨e, rest, hseek, hfe, hmem⟩ :=
      seek_entries_head (fun e => e.sample_id) es s hsa e₀ h₀ hf
    exact ⟨e, rest, by rw [hann, hseek], hfe, hmem⟩
  · intro elast hl hlt
    rw [hann, seek_entries_past (fun e => e.sample_id) es s hsa elast hl hlt]
  · rintro ⟨u₀, h₀, hf⟩
    obtain ⟨u, rest, hseek, hfu, hmem⟩ :=
      seek_entries_head (fun e => e.sample_id) us s hsu u₀ h₀ hf
    exact ⟨u, rest, by rw [hutc, hseek], hfu, hmem⟩
  · intro ulast hl hlt
    rw [hutc, seek_entries_past (fun e => e.sample_id) us s hsu ulast hl hlt]

/-- C5 witness: on the concrete writer state, seeking the annotation
track at the stored entry's sample id 5 returns it first, and seeking the
UTC track at 9 (past the last entry) returns the empty sequence. -/
theorem reader_seek_spec_witness :
    (∃ e rest, annotations_read sample_writer_state 3 5 = .ok (e :: rest) ∧
      e.sample_id = 5 ∧ e ∈ [(⟨5, Option.none, 0, 0, []⟩ : AnnEntry)]) ∧
    utc_read sample_writer_state 3 9 = .ok [] :=
  ⟨(reader_seek_spec sample_writer_state 3 5 [⟨5, Option.none, 0, 0, []⟩] [⟨5, 7⟩]
      (by decide) (by decide) (by decide) (by decide)).1
      ⟨⟨5, Option.none, 0, 0, []⟩, by decide, rfl⟩,
   (reader_seek_spec sample_writer_state 3 9 [⟨5, Option.none, 0, 0, []⟩] [⟨5, 7⟩]
      (by decide) (by decide) (by decide) (by decide)).2.2.2 ⟨5, 7⟩ (by decide) (by decide)⟩

/-- If `c :: r` keeps `r` nonempty, its last element is `r`'s. -/
theorem getLast?_cons_of_ne_nil {α : Type} (c : α) {r : List α} (h : r ≠ []) :
    (c :: r).getLast? = r.getLast? := by
  cases r with
  | nil => exact absurd rfl h
  | cons a t => exact List.getLast?_cons_cons

/-- The remaining characters after the optional sign are the whole string
or its tail. -/
theorem parseSign_snd (s : List Char) :
    (parseSign s).2 = s ∨ ∃ c r, s = c :: r ∧ (parseSign s).2 = r := by
  cases s with
  | nil => left; rfl
  | cons c r =>
    simp only [parseSign]
    split_ifs with h1 h2
    · right; exact ⟨c, r, rfl, rfl⟩
    · right; exact ⟨c, r, rfl, rfl⟩
    · left; rfl

/-- A successfully parsed float literal ends in a digit or in the decimal
point — never in a unit letter. -/
theorem parseFloat_getLast (s : List Char) (f : ℚ) (h : parseFloat s = some f) :
    ∃ c, s.getLast? = some c ∧ (c.isDigit = true ∨ c = '.') := by
  have hcore : ∃ c, (parseSign s).2.getLast? = some c ∧ (c.isDigit = true ∨ c = '.') := by
    simp only [parseFloat] at h
    cases hr : (parseSign s).2.dropWhile Char.isDigit with
    | nil =>
      rw [hr] at h
      by_cases hip : (parseSign s).2.takeWhile Char.isDigit = []
      · simp only [if_pos hip] at h; cases h
      · have hteq : (parseSign s).2 = (parseSign s).2.takeWhile Char.isDigit := by
          conv_lhs => rw [← List.takeWhile_append_dropWhile (p := Char.isDigit)
            (l := (parseSign s).2)]
          rw [hr, List.append_nil]
        cases hc : ((parseSign s).2.takeWhile Char.isDigit).getLast? with
        | none => rw [List.getLast?_eq_none_iff] at hc; exact absurd hc hip
        | some c =>
          refine ⟨c, ?_, Or.inl ?_⟩
          · rw [hteq]; exact hc
          · exact List.mem_takeWhile_imp (List.mem_of_getLast?_eq_some hc)
    | cons d fp =>
      rw [hr] at h
      by_cases hcond : d = '.' ∧ fp.all Char.isDigit = true ∧
        ((parseSign s).2.takeWhile Char.isDigit ≠ [] ∨ fp ≠ [])
      · obtain ⟨hd, hall, _⟩ := hcond
        subst hd
        have hteq : (parseSign s).2 =
            (parseSign s).2.takeWhile Char.isDigit ++ '.' :: fp := by
          conv_lhs => rw [← List.takeWhile_append_dropWhile (p := Char.isDigit)
            (l := (parseSign s).2)]
          rw [hr]
        cases fp with
        | nil =>
          refine ⟨'.', ?_, Or.inr rfl⟩
          rw [hteq]
          exact List.getLast?_concat _
        | cons g u =>
          have h1 : (parseSign s).2.getLast? = (g :: u).getLast? := by
            rw [hteq, List.getLast?_append_of_ne_nil _ (by simp),
              List.getLast?_cons_cons]
          cases hc : (g :: u).getLast? with
          | none => rw [List.getLast?_eq_none_iff] at hc; cases hc
          | some c =>
            refine ⟨c, by rw [h1, hc], Or.inl ?_⟩
            have hmem : c ∈ g :: u := List.mem_of_getLast?_eq_some hc
            exact List.all_eq_true.mp hall c hmem
      · simp only [if_neg hcond] at h
        exact Option.noConfusion h
  obtain ⟨c, hlast, hprop⟩ := hcore
  rcases parseSign_snd s with he | ⟨c₀, r, hs, he⟩
  · rw [he] at hlast
    exact ⟨c, hlast, hprop⟩
  · rw [he] at hlast
    have hr_ne : r ≠ [] := by
      intro hnil
      rw [hnil] at hlast
      cases hlast
    rw [hs, getLast?_cons_of_ne_nil c₀ hr_ne]
    exact ⟨c, hlast, hprop⟩

/-- C8: `duration_to_seconds` returns a numeric input unchanged as float
seconds; for a string that is a float literal `f` with an optional unit
suffix it returns `f` for suffix `s` or no suffix, `60*f` for `m`,
`3600*f` for `h`, and `86400*f` for `d`. -/
theorem duration_to_seconds_spec (s : List Char) (f : ℚ) (h : parseFloat s = some f) :
    (∀ q : ℚ, duration_to_seconds (.num q) = .ok q) ∧
    duration_to_seconds (.str s) = .ok f ∧
    duration_to_seconds (.str (s ++ ['s'])) = .ok f ∧
    duration_to_seconds (.str (s ++ ['m'])) = .ok (60 * f) ∧
    duration_to_seconds (.str (s ++ ['h'])) = .ok (3600 * f) ∧
    duration_to_seconds (.str (s ++ ['d'])) = .ok (86400 * f) := by
  have hok : pyFloat s = .ok f := by simp [pyFloat, h]
  refine ⟨fun q => rfl, ?_, ?_, ?_, ?_, ?_⟩
  · obtain ⟨c, hlast, hprop⟩ := parseFloat_getLast s f h
    have hcs : c ≠ 's' := by
      rcases hprop with hd | hd
      · intro he; subst he; exact absurd hd (by decide)
      · intro he; rw [he] at hd; exact absurd hd (by decide)
    have hcm : c ≠ 'm' := by
      rcases hprop with hd | hd
      · intro he; subst he; exact absurd hd (by decide)
      · intro he; rw [he] at hd; exact absurd hd (by decide)
    have hch : c ≠ 'h' := by
      rcases hprop with hd | hd
      · intro he; subst he; exact absurd hd (by decide)
      · intro he; rw [he] at hd; exact absurd hd (by decide)
    have hcd : c ≠ 'd' := by
      rcases hprop with hd | hd
      · intro he; subst he; exact absurd hd (by decide)
      · intro he; rw [he] at hd; exact absurd hd (by decide)
    simp only [duration_to_seconds, hlast, if_neg hcs, if_neg hcm,
      if_neg hch, if_neg hcd]
    exact hok
  · simp only [duration_to_seconds, List.getLast?_concat, List.dropLast_concat,
      if_pos rfl]
    exact hok
  · simp only [duration_to_seconds, List.getLast?_concat, List.dropLast_concat]
    simp [hok, Except.map]
  · simp only [duration_to_seconds, List.getLast?_concat, List.dropLast_concat]
    simp [hok, Except.map]
    norm_num
  · simp only [duration_to_seconds, List.getLast?_concat, List.dropLast_concat]
    simp [hok, Except.map]
    norm_num

/-- C8 witness: the parser and converter evaluated on the literal `1.5`
and the suffixed form `1.5m`. -/
theorem duration_to_seconds_spec_witness :
    parseFloat ("1.5".toList) = some (3 / 2) ∧
    duration_to_seconds (.str ("1.5".toList ++ ['m'])) = .ok (60 * (3 / 2)) := by
  have hp : parseFloat ("1.5".toList) = some (3 / 2) := by
    have h1 : ('1').isDigit = true := by decide
    have h2 : ('.').isDigit = false := by decide
    have h3 : ('5').isDigit = true := by decide
    simp [parseFloat, parseSign, digitsToNat, digitVal, List.takeWhile,
      List.dropWhile, h1, h2, h3]
    norm_num
  exact ⟨hp, (duration_to_seconds_spec ("1.5".toList) (3 / 2) hp).2.2.2.1⟩

/-- Flattening the chunks of a stream restores the stream (the fuel is
adequate and the chunk size positive). -/
theorem chunk_go_flatten {α : Type} (n : ℕ) (hn : 0 < n) :
    ∀ (fuel : ℕ) (xs : List α), xs.length ≤ fuel →
      (chunk_go n fuel xs).flatten = xs := by
  intro fuel
  induction fuel with
  | zero =>
    intro xs h
    cases xs with
    | nil => rfl
    | cons x t => simp at h
  | succ fuel ih =>
    intro xs h
    cases xs with
    | nil => rfl
    | cons x t =>
      show (((x :: t).take n) :: chunk_go n fuel ((x :: t).drop n)).flatten = x :: t
      rw [List.flatten_cons, ih ((x :: t).drop n)
        (by rw [List.length_drop]; simp only [List.length_cons] at h ⊢; omega)]
      exact List.take_append_drop n (x :: t)

/-- Chunk-directory resolution reads exactly the requested slice of the
concatenated samples. -/
theorem read_chunks_eq {α : Type} :
    ∀ (cs : List (List α)) (start count : ℕ),
      read_chunks cs start count = ((cs.flatten).drop start).take count := by
  intro cs
  induction cs with
  | nil => intro start count; simp [read_chunks]
  | cons c cs ih =>
    intro start count
    by_cases h : c.length ≤ start
    · rw [read_chunks, if_pos h, ih, List.flatten_cons,
        List.drop_append_eq_append_drop, List.drop_eq_nil_of_le h,
        List.nil_append]
    · rw [read_chunks, if_neg h, ih, List.flatten_cons,
        List.drop_append_eq_append_drop,
        Nat.sub_eq_zero_of_le (le_of_not_le h), List.drop_zero,
        List.take_append_eq_append_take, List.length_drop]

/-- Updating the value stored under an existing key makes lookups of that
key return the new value. -/
theorem alist_get_set_self {β : Type} :
    ∀ (l : List (ℕ × β)) (k : ℕ) (v : β) (d : β),
      alist_get l k = some d → alist_get (alist_set l k v) k = some v := by
  intro l
  induction l with
  | nil => intro k v d h; simp [alist_get] at h
  | cons p t ih =>
    intro k v d h
    by_cases hpk : p.1 = k
    · simp [alist_get, alist_set, List.find?, hpk]
    · simp only [alist_get, alist_set, List.map_cons, if_neg hpk] at *
      rw [List.find?_cons_of_neg _ (by simpa using hpk)] at h
      rw [List.find?_cons_of_neg _ (by simpa using hpk)]
      exact ih k v d h

/-- Appending batches at the running sample id always succeeds and leaves
the signal's data equal to the previous data followed by the batches. -/
theorem append_run_ok (signal_id : ℕ) (sd : SignalDef) :
    ∀ (batches : List (List ℚ)) (st : WriterState) (d : List ℚ),
      st.signals.find? (fun s => s.signal_id = signal_id) = some sd →
      alist_get st.fsr_data signal_id = some d →
      ∃ st' : WriterState,
        append_run signal_id batches (sd.sample_id_offset + d.length) st = .ok st' ∧
        st'.signals = st.signals ∧
        alist_get st'.fsr_data signal_id = some (d ++ batches.flatten) := by
  intro batches
  induction batches with
  | nil =>
    intro st d hfind hget
    exact ⟨st, rfl, rfl, by rw [List.flatten_nil, List.append_nil]; exact hget⟩
  | cons b bs ih =>
    intro st d hfind hget
    have happ : fsr_append st signal_id (sd.sample_id_offset + d.length) b =
        .ok { st with fsr_data := alist_set st.fsr_data signal_id (d ++ b) } := by
      simp [fsr_append, hfind, hget]
    have hfind1 : ({ st with fsr_data := alist_set st.fsr_data signal_id (d ++ b) }
        : WriterState).signals.find? (fun s => s.signal_id = signal_id) = some sd := hfind
    have hget1 : alist_get ({ st with
        fsr_data := alist_set st.fsr_data signal_id (d ++ b) } :
        WriterState).fsr_data signal_id = some (d ++ b) :=
      alist_get_set_self st.fsr_data signal_id (d ++ b) d hget
    obtain ⟨st', hrun, hsig, hget'⟩ := ih _ (d ++ b) hfind1 hget1
    refine ⟨st', ?_, hsig, ?_⟩
    · show append_run signal_id (b :: bs) (sd.sample_id_offset + d.length) st = .ok st'
      rw [append_run, happ]
      have harith : sd.sample_id_offset + d.length + b.length =
          sd.sample_id_offset + (d ++ b).length := by
        rw [List.length_append]; omega
      rw [harith]
      exact hrun
    · rw [List.flatten_cons, ← List.append_assoc]
      exact hget'

/-- C1: appending any sequence of sample batches through `Writer.fsr`
starting at the signal's first valid sample id (0 for the default
`sample_id_offset`) and reading back the whole range with `Reader.fsr`
returns exactly the appended samples, element by element and in order
(write/read round-trip through the chunked data track). -/
theorem fsr_round_trip (sd : SignalDef) (batches : List (List ℚ))
    (h0 : sd.source_id ≠ 0)
    (h2 : 0 < sd.samples_per_data) :
    fsr_write_read sd batches = .ok batches.flatten := by
  have hsrc : source_def WriterState.init sd.source_id =
      .ok (⟨[0, sd.source_id], [], [], [], []⟩ : WriterState) := by
    simp [source_def, WriterState.init, h0]
  have hsig2 : signal_def (⟨[0, sd.source_id], [], [], [], []⟩ : WriterState) sd =
      .ok (⟨[0, sd.source_id], [sd], [(sd.signal_id, [])], [(sd.signal_id, [])],
        [(sd.signal_id, [])]⟩ : WriterState) := by
    simp [signal_def]
  have hfind : (⟨[0, sd.source_id], [sd], [(sd.signal_id, [])], [(sd.signal_id, [])],
      [(sd.signal_id, [])]⟩ :
      WriterState).signals.find? (fun s => s.signal_id = sd.signal_id) = some sd := by
    simp [List.find?]
  have hget0 : alist_get (⟨[0, sd.source_id], [sd], [(sd.signal_id, [])],
      [(sd.signal_id, [])], [(sd.signal_id, [])]⟩ :
      WriterState).fsr_data sd.signal_id = some [] := by
    simp [alist_get, List.find?]
  obtain ⟨st', hrun, hsig, hget⟩ :=
    append_run_ok sd.signal_id sd batches _ [] hfind hget0
  have hrun' : append_run sd.signal_id batches sd.sample_id_offset
      (⟨[0, sd.source_id], [sd], [(sd.signal_id, [])], [(sd.signal_id, [])],
        [(sd.signal_id, [])]⟩ : WriterState) = .ok st' := by
    simpa using hrun
  have hget' : alist_get st'.fsr_data sd.signal_id = some batches.flatten := by
    simpa using hget
  have hfind' : st'.signals.find? (fun s => s.signal_id = sd.signal_id) = some sd := by
    rw [hsig]; exact hfind
  have hread : reader_fsr st' sd.signal_id sd.sample_id_offset
      batches.flatten.length = .ok batches.flatten := by
    simp only [reader_fsr, hfind', hget']
    rw [if_pos ⟨le_refl _, le_refl _⟩, Nat.sub_self, to_chunks, read_chunks_eq,
      chunk_go_flatten sd.samples_per_data h2 batches.flatten.length
        batches.flatten (le_refl _),
      List.drop_zero, List.take_length]
  unfold fsr_write_read
  simp only [hsrc, hsig2, hrun', hread, Bind.bind, Except.bind]

/-- C1 witness: the round trip evaluated on a concrete signal and two
concrete batches. -/
theorem fsr_round_trip_witness :
    sd3.sample_id_offset = 0 ∧
    fsr_write_read sd3 [[1, 2], [3]] = .ok [1, 2, 3] :=
  ⟨rfl, by
    have h := fsr_round_trip sd3 [[1, 2], [3]] (by decide) (by decide)
    simpa using h⟩

/-- A min-fold is bounded by its initial value. -/
theorem foldl_min_le_init : ∀ (xs : List ℚ) (a : ℚ), xs.foldl min a ≤ a := by
  intro xs
  induction xs with
  | nil => intro a; exact le_refl a
  | cons b t ih =>
    intro a
    exact le_trans (ih (min a b)) (min_le_left a b)

/-- A min-fold is bounded by every list element. -/
theorem foldl_min_le_mem : ∀ (xs : List ℚ) (a y : ℚ), y ∈ xs → xs.foldl min a ≤ y := by
  intro xs
  induction xs with
  | nil => intro a y hy; cases hy
  | cons b t ih =>
    intro a y hy
    rcases List.mem_cons.mp hy with rfl | hy'
    · exact le_trans (foldl_min_le_init t (min a y)) (min_le_right a y)
    · exact ih (min a b) y hy'

/-- A min-fold returns its initial value or a list element. -/
theorem foldl_min_mem_or : ∀ (xs : List ℚ) (a : ℚ),
    xs.foldl min a = a ∨ xs.foldl min a ∈ xs := by
  intro xs
  induction xs with
  | nil => intro a; exact Or.inl rfl
  | cons b t ih =>
    intro a
    rcases ih (min a b) with h | h
    · rcases min_choice a b with hm | hm
      · exact Or.inl (by rw [List.foldl_cons, h, hm])
      · exact Or.inr (by rw [List.foldl_cons, h, hm]; exact List.mem_cons_self b t)
    · exact Or.inr (List.mem_cons_of_mem b h)

/-- A max-fold is bounded below by its initial value. -/
theorem foldl_max_init_le : ∀ (xs : List ℚ) (a : ℚ), a ≤ xs.foldl max a := by
  intro xs
  induction xs with
  | nil => intro a; exact le_refl a
  | cons b t ih =>
    intro a
    exact le_trans (le_max_left a b) (ih (max a b))

/-- A max-fold dominates every list element. -/
theorem foldl_max_mem_le : ∀ (xs : List ℚ) (a y : ℚ), y ∈ xs → y ≤ xs.foldl max a := by
  intro xs
  induction xs with
  | nil => intro a y hy; cases hy
  | cons b t ih =>
    intro a y hy
    rcases List.mem_cons.mp hy with rfl | hy'
    · exact le_trans (le_max_right a y) (foldl_max_init_le t (max a y))
    · exact ih (max a b) y hy'

/-- A max-fold returns its initial value or a list element. -/
theorem foldl_max_mem_or : ∀ (xs : List ℚ) (a : ℚ),
    xs.foldl max a = a ∨ xs.foldl max a ∈ xs := by
  intro xs
  induction xs with
  | nil => intro a; exact Or.inl rfl
  | cons b t ih =>
    intro a
    rcases ih (max a b) with h | h
    · rcases max_choice a b with hm | hm
      · exact Or.inl (by rw [List.foldl_cons, h, hm])
      · exact Or.inr (by rw [List.foldl_cons, h, hm]; exact List.mem_cons_self b t)
    · exact Or.inr (List.mem_cons_of_mem b h)

/-- The minimum of a nonempty sample list is one of the samples. -/
theorem listMin_mem (xs : List ℚ) (h : xs ≠ []) : listMin xs ∈ xs := by
  cases xs with
  | nil => exact absurd rfl h
  | cons x t =>
    rcases foldl_min_mem_or t x with h' | h'
    · rw [listMin, h']; exact List.mem_cons_self x t
    · exact List.mem_cons_of_mem x h'

/-- The minimum of a sample list bounds every sample. -/
theorem listMin_le (xs : List ℚ) (y : ℚ) (hy : y ∈ xs) : listMin xs ≤ y := by
  cases xs with
  | nil => cases hy
  | cons x t =>
    rcases List.mem_cons.mp hy with rfl | hy'
    · exact foldl_min_le_init t y
    · exact foldl_min_le_mem t x y hy'

/-- The maximum of a nonempty sample list is one of the samples. -/
theorem listMax_mem (xs : List ℚ) (h : xs ≠ []) : listMax xs ∈ xs := by
  cases xs with
  | nil => exact absurd rfl h
  | cons x t =>
    rcases foldl_max_mem_or t x with h' | h'
    · rw [listMax, h']; exact List.mem_cons_self x t
    · exact List.mem_cons_of_mem x h'

/-- The maximum of a sample list dominates every sample. -/
theorem le_listMax (xs : List ℚ) (y : ℚ) (hy : y ∈ xs) : y ≤ listMax xs := by
  cases xs with
  | nil => cases hy
  | cons x t =>
    rcases List.mem_cons.mp hy with rfl | hy'
    · exact foldl_max_init_le t y
    · exact foldl_max_mem_le t x y hy'

/-- A list's sample count times its mean is its sum. -/
theorem sum_eq_len_mul_mean (xs : List ℚ) :
    (xs.length : ℚ) * listMean xs = xs.sum := by
  cases xs with
  | nil => simp [listMean]
  | cons x t =>
    have h : ((x :: t).length : ℚ) ≠ 0 := by
      have : (0 : ℚ) < ((x :: t).length : ℚ) := by
        exact_mod_cast Nat.succ_pos t.length
      exact ne_of_gt this
    rw [listMean, mul_comm, div_mul_cancel₀ _ h]

/-- Expansion of the sum of squared deviations. -/
theorem m2_expand (xs : List ℚ) (c : ℚ) :
    m2 xs c = (xs.map (fun x => x ^ 2)).sum - 2 * c * xs.sum +
      (xs.length : ℚ) * c ^ 2 := by
  induction xs with
  | nil => simp [m2]
  | cons x t ih =>
    simp only [m2, List.map_cons, List.sum_cons, List.length_cons] at *
    rw [ih]
    push_cast
    ring

/-- Bias shift: squared deviations about any center `c` decompose into
deviations about the mean plus a count-weighted mean-shift term. -/
theorem m2_shift (xs : List ℚ) (c : ℚ) :
    m2 xs c = m2 xs (listMean xs) +
      (xs.length : ℚ) * (listMean xs - c) ^ 2 := by
  have hsum := sum_eq_len_mul_mean xs
  rw [m2_expand, m2_expand]
  linear_combination (2 * (c - listMean xs)) * hsum

/-- Squared deviations are additive over concatenation. -/
theorem m2_append (xs ys : List ℚ) (c : ℚ) :
    m2 (xs ++ ys) c = m2 xs c + m2 ys c := by
  simp [m2, List.map_append, List.sum_append]

/-- The count of a computed window entry is the window's sample count. -/
theorem compute_count (xs : List ℚ) (h : xs ≠ []) : (compute xs).count = xs.length := by
  cases xs with
  | nil => exact absurd rfl h
  | cons x t => rfl

/-- The mean of a computed window entry is the window's mean. -/
theorem compute_mean (xs : List ℚ) (h : xs ≠ []) : (compute xs).mean = listMean xs := by
  cases xs with
  | nil => exact absurd rfl h
  | cons x t => rfl

/-- The min of a computed window entry is the window's minimum. -/
theorem compute_min (xs : List ℚ) (h : xs ≠ []) : (compute xs).min = listMin xs := by
  cases xs with
  | nil => exact absurd rfl h
  | cons x t => rfl

/-- The max of a computed window entry is the window's maximum. -/
theorem compute_max (xs : List ℚ) (h : xs ≠ []) : (compute xs).max = listMax xs := by
  cases xs with
  | nil => exact absurd rfl h
  | cons x t => rfl

/-- The variance of a computed window entry uses the sample (N-1)
definition for N>1 and is zero for N=1. -/
theorem compute_var (xs : List ℚ) (h : xs ≠ []) :
    (compute xs).var = if xs.length = 1 then 0
      else m2 xs (listMean xs) / ((xs.length : ℚ) - 1) := by
  cases xs with
  | nil => exact absurd rfl h
  | cons x t => rfl

/-- Parallel-merge identity for one child window: the child's weighted
variance and mean-shift term recombine into the squared deviations of the
child's raw samples about any global center. -/
theorem window_merge (w : List ℚ) (h : w ≠ []) (c : ℚ) :
    (((compute w).count : ℚ) - 1) * (compute w).var +
      ((compute w).count : ℚ) * ((compute w).mean - c) ^ 2 = m2 w c := by
  rw [compute_count w h, compute_mean w h, compute_var w h]
  by_cases h1 : w.length = 1
  · rw [if_pos h1]
    obtain ⟨x, rfl⟩ := List.length_eq_one.mp h1
    simp [listMean, m2]
  · rw [if_neg h1]
    have hne : ((w.length : ℚ) - 1) ≠ 0 := by
      intro heq
      apply h1
      have : (w.length : ℚ) = 1 := by linarith
      exact_mod_cast this
    rw [mul_comm (((w.length : ℚ) - 1)) _, div_mul_cancel₀ _ hne]
    exact (m2_shift w c).symm

/-- The count-weighted child means sum to the raw sum over all windows. -/
theorem weighted_mean_sum (ws : List (List ℚ)) (hne : ∀ w ∈ ws, w ≠ []) :
    ((ws.map compute).map (fun e => (e.count : ℚ) * e.mean)).sum =
      (ws.flatten).sum := by
  induction ws with
  | nil => rfl
  | cons w t ih =>
    have hw : w ≠ [] := hne w (List.mem_cons_self w t)
    have ht : ∀ v ∈ t, v ≠ [] := fun v hv => hne v (List.mem_cons_of_mem w hv)
    simp only [List.map_cons, List.sum_cons, List.flatten_cons, List.sum_append]
    rw [ih ht, compute_count w hw, compute_mean w hw, sum_eq_len_mul_mean]

/-- The child counts sum to the total raw sample count. -/
theorem counts_sum (ws : List (List ℚ)) (hne : ∀ w ∈ ws, w ≠ []) :
    ((ws.map compute).map (fun e => e.count)).sum = (ws.flatten).length := by
  induction ws with
  | nil => rfl
  | cons w t ih =>
    have hw : w ≠ [] := hne w (List.mem_cons_self w t)
    have ht : ∀ v ∈ t, v ≠ [] := fun v hv => hne v (List.mem_cons_of_mem w hv)
    simp only [List.map_cons, List.sum_cons, List.flatten_cons, List.length_append]
    rw [ih ht, compute_count w hw]

/-- The parallel variance merge over all windows recovers the squared
deviations of all raw samples about the global center. -/
theorem merge_sum (ws : List (List ℚ)) (hne : ∀ w ∈ ws, w ≠ []) (c : ℚ) :
    ((ws.map compute).map (fun e =>
        ((e.count : ℚ) - 1) * e.var + (e.count : ℚ) * (e.mean - c) ^ 2)).sum =
      m2 (ws.flatten) c := by
  induction ws with
  | nil => simp [m2]
  | cons w t ih =>
    have hw : w ≠ [] := hne w (List.mem_cons_self w t)
    have ht : ∀ v ∈ t, v ≠ [] := fun v hv => hne v (List.mem_cons_of_mem w hv)
    simp only [List.map_cons, List.sum_cons, List.flatten_cons]
    rw [ih ht, m2_append, window_merge w hw c]

/-- C2: for any decomposition of a raw-sample window into nonempty
sub-windows, the summary entry produced by reducing the per-window
`compute` entries has mean equal to the count-weighted mean of the raw
samples (exactly, in the rational model of the floating-point engine),
min and max equal to the true minimum and maximum of the window, and its
standard deviation follows the sample (N-1) definition: squared deviation
sum over N-1 for N>1, and zero (not NaN) for N=1. -/
theorem fsr_statistics_summary (ws : List (List ℚ)) (hw : ws ≠ [])
    (hne : ∀ w ∈ ws, w ≠ []) :
    (reduce (ws.map compute)).count = (ws.flatten).length ∧
    (reduce (ws.map compute)).mean = (ws.flatten).sum / ((ws.flatten).length : ℚ) ∧
    (reduce (ws.map compute)).min ∈ ws.flatten ∧
    (∀ x ∈ ws.flatten, (reduce (ws.map compute)).min ≤ x) ∧
    (reduce (ws.map compute)).max ∈ ws.flatten ∧
    (∀ x ∈ ws.flatten, x ≤ (reduce (ws.map compute)).max) ∧
    ((ws.flatten).length = 1 → (reduce (ws.map compute)).var = 0) ∧
    (1 < (ws.flatten).length →
      (reduce (ws.map compute)).var =
        m2 (ws.flatten) ((reduce (ws.map compute)).mean) /
          (((ws.flatten).length : ℚ) - 1)) := by
  have hcount : (reduce (ws.map compute)).count = (ws.flatten).length := by
    show (((ws.map compute).map (fun e => e.count)).sum) = (ws.flatten).length
    exact counts_sum ws hne
  have hmean : (reduce (ws.map compute)).mean =
      (ws.flatten).sum / ((ws.flatten).length : ℚ) := by
    show ((ws.map compute).map (fun e => (e.count : ℚ) * e.mean)).sum /
        ((((ws.map compute).map (fun e => e.count)).sum : ℕ) : ℚ) =
      (ws.flatten).sum / ((ws.flatten).length : ℚ)
    rw [weighted_mean_sum ws hne, counts_sum ws hne]
  have hmins_ne : (ws.map compute).map (fun e => e.min) ≠ [] := by
    intro h
    apply hw
    simpa using h
  have hmaxs_ne : (ws.map compute).map (fun e => e.max) ≠ [] := by
    intro h
    apply hw
    simpa using h
  have hmin_eq : (reduce (ws.map compute)).min =
      listMin ((ws.map compute).map (fun e => e.min)) := rfl
  have hmax_eq : (reduce (ws.map compute)).max =
      listMax ((ws.map compute).map (fun e => e.max)) := rfl
  have hminmem : (reduce (ws.map compute)).min ∈ ws.flatten := by
    have h1 := listMin_mem _ hmins_ne
    obtain ⟨e, hemem, heeq⟩ := List.mem_map.mp h1
    obtain ⟨w, hwmem, rfl⟩ := List.mem_map.mp hemem
    rw [hmin_eq, ← heeq, compute_min w (hne w hwmem)]
    exact List.mem_flatten.mpr ⟨w, hwmem, listMin_mem w (hne w hwmem)⟩
  have hminle : ∀ x ∈ ws.flatten, (reduce (ws.map compute)).min ≤ x := by
    intro x hx
    obtain ⟨w, hwmem, hxmem⟩ := List.mem_flatten.mp hx
    have h1 : (compute w).min ∈ (ws.map compute).map (fun e => e.min) :=
      List.mem_map_of_mem _ (List.mem_map_of_mem compute hwmem)
    calc (reduce (ws.map compute)).min
        = listMin ((ws.map compute).map (fun e => e.min)) := hmin_eq
      _ ≤ (compute w).min := listMin_le _ _ h1
      _ = listMin w := compute_min w (hne w hwmem)
      _ ≤ x := listMin_le w x hxmem
  have hmaxmem : (reduce (ws.map compute)).max ∈ ws.flatten := by
    have h1 := listMax_mem _ hmaxs_ne
    obtain ⟨e, hemem, heeq⟩ := List.mem_map.mp h1
    obtain ⟨w, hwmem, rfl⟩ := List.mem_map.mp hemem
    rw [hmax_eq, ← heeq, compute_max w (hne w hwmem)]
    exact List.mem_flatten.mpr ⟨w, hwmem, listMax_mem w (hne w hwmem)⟩
  have hmaxle : ∀ x ∈ ws.flatten, x ≤ (reduce (ws.map compute)).max := by
    intro x hx
    obtain ⟨w, hwmem, hxmem⟩ := List.mem_flatten.mp hx
    have h1 : (compute w).max ∈ (ws.map compute).map (fun e => e.max) :=
      List.mem_map_of_mem _ (List.mem_map_of_mem compute hwmem)
    calc x ≤ listMax w := le_listMax w x hxmem
      _ = (compute w).max := (compute_max w (hne w hwmem)).symm
      _ ≤ listMax ((ws.map compute).map (fun e => e.max)) := le_listMax _ _ h1
      _ = (reduce (ws.map compute)).max := hmax_eq.symm
  have hvar_def : (reduce (ws.map compute)).var =
      if ((ws.map compute).map (fun e => e.count)).sum ≤ 1 then 0
      else ((ws.map compute).map (fun e =>
          ((e.count : ℚ) - 1) * e.var +
            (e.count : ℚ) * (e.mean - (reduce (ws.map compute)).mean) ^ 2)).sum /
        (((((ws.map compute).map (fun e => e.count)).sum : ℕ) : ℚ) - 1) := rfl
  refine ⟨hcount, hmean, hminmem, hminle, hmaxmem, hmaxle, ?_, ?_⟩
  · intro h1
    rw [hvar_def, if_pos]
    rw [counts_sum ws hne, h1]
  · intro h1
    rw [hvar_def, if_neg (by rw [counts_sum ws hne]; omega)]
    rw [counts_sum ws hne, merge_sum ws hne ((reduce (ws.map compute)).mean)]

/-- C2 witness: the reduced summary over two concrete windows evaluated
at its count and mean. -/
theorem fsr_statistics_summary_witness :
    ([[(1 : ℚ), 2], [3, 4]] : List (List ℚ)) ≠ [] ∧
    (reduce (([[(1 : ℚ), 2], [3, 4]] : List (List ℚ)).map compute)).count = 4 :=
  ⟨by decide,
   ((fsr_statistics_summary [[(1 : ℚ), 2], [3, 4]] (by decide)
      (by decide)).1).trans (by decide)⟩
